import Mathlib

/-!
# Verification of the strategic-mind-games Rust optimization layer

A shallow embedding of `src/rust-optimizer/src/{lib,game_tree,evaluation,
minimax,alpha_beta,ffi}.rs`.  Rust `f64` values are modelled by `ℚ` (every
constant in the source is an exact decimal and no operation leaves ℚ), and
the `f64::NEG_INFINITY`/`f64::INFINITY` sentinels used by the searches are
modelled by `WithBot (WithTop ℚ)`.  The call `rand::random::<f64>()` inside
`GameTree::apply_move` is modelled by an explicit `draw : ℚ` argument.
Machine integers (`u8` round, `i32` trust) are modelled by `Nat`/`Int`;
no operation of the core brings them anywhere near the wrap-around range.
Wall-clock time (`time_ms`) is not modelled.
-/

namespace StrategicMindGames

/-- `Phase` from `lib.rs`. -/
inductive Phase where
  | Claim
  | Challenge
  | Resolution
deriving DecidableEq, Repr

/-- `ClaimType` from `lib.rs`. -/
inductive ClaimType where
  | Information
  | Prediction
  | Accusation
  | Alliance
deriving DecidableEq, Repr

/-- `Player` from `lib.rs`. -/
inductive Player where
  | Player1
  | Player2
deriving DecidableEq, Repr

/-- `Action` from `lib.rs`. -/
inductive Action where
  | MakeClaim
  | Challenge
  | Accept
deriving DecidableEq, Repr

/-- `Player::opponent` from `lib.rs`. -/
def Player.opponent : Player → Player
  | Player.Player1 => Player.Player2
  | Player.Player2 => Player.Player1

/-- `Claim` from `lib.rs` (`boldness: f64` as `ℚ`). -/
structure Claim where
  description : String
  claim_type : ClaimType
  boldness : ℚ
  is_bluff : Bool
deriving DecidableEq, Repr

/-- `Move` from `lib.rs` (`confidence: f64` as `ℚ`). -/
structure Move where
  action : Action
  player : Player
  claim : Option Claim
  confidence : ℚ
deriving DecidableEq, Repr

/-- `GameState` from `lib.rs` (`round: u8` as `Nat`, trusts `i32` as `Int`). -/
structure GameState where
  round : Nat
  phase : Phase
  player1_trust : Int
  player2_trust : Int
  current_claim : Option Claim
  move_history : List Move
deriving DecidableEq, Repr

/-- The trust field of `state` belonging to `player` (the `match player`
pattern that recurs throughout `evaluation.rs` and `game_tree.rs`). -/
def trust_of (state : GameState) (player : Player) : Int :=
  match player with
  | Player.Player1 => state.player1_trust
  | Player.Player2 => state.player2_trust

namespace GameTree

/-- `GameTree::generate_claim_moves` from `game_tree.rs` (the `&self`
receiver is unused by the source function and is dropped).  The Rust
`format!` of the boldness is rendered with `toString` on `ℚ`; the
description string plays no further role in the core. -/
def generate_claim_moves (_state : GameState) (player : Player) : List Move :=
  let boldness_levels : List ℚ := [0.2, 0.4, 0.6, 0.8]
  (boldness_levels.map (fun boldness =>
    ([ClaimType.Information, ClaimType.Prediction,
      ClaimType.Accusation, ClaimType.Alliance]).map (fun claim_type =>
      { action := Action.MakeClaim
        player := player
        claim := some
          { description := "Generated claim with boldness " ++ toString boldness
            claim_type := claim_type
            boldness := boldness
            is_bluff := decide (boldness > 0.5) }
        confidence := 1.0 - boldness * 0.3 }))).flatten

/-- `GameTree::generate_challenge_moves` from `game_tree.rs`. -/
def generate_challenge_moves (_state : GameState) (player : Player) : List Move :=
  [ { action := Action.Challenge, player := player, claim := none, confidence := 0.7 },
    { action := Action.Accept, player := player, claim := none, confidence := 0.6 } ]

/-- `GameTree::generate_moves` from `game_tree.rs`. -/
def generate_moves (state : GameState) (player : Player) : List Move :=
  match state.phase with
  | Phase.Claim => generate_claim_moves state player
  | Phase.Challenge => generate_challenge_moves state player
  | Phase.Resolution => []

/-- `GameTree::apply_move` from `game_tree.rs`.  The source samples
`rand::random::<f64>()` once in the `Challenge | Accept` arm; that sample is
the explicit `draw` argument here, so the embedding is a function of
`(draw, state, move)`. -/
def apply_move (draw : ℚ) (state : GameState) (move_made : Move) : GameState :=
  let new_state :=
    match move_made.action with
    | Action.MakeClaim =>
        { state with current_claim := move_made.claim, phase := Phase.Challenge }
    | _ =>
        -- Action::Challenge | Action::Accept
        let ns := { state with phase := Phase.Resolution }
        match ns.current_claim with
        | some claim =>
            let success_prob := 0.6 - claim.boldness * 0.3
            let is_successful : Bool := decide (draw < success_prob)
            if move_made.action = Action.Challenge then
              if is_successful = false then
                match move_made.player with
                | Player.Player1 => { ns with player1_trust := ns.player1_trust + 15 }
                | Player.Player2 => { ns with player2_trust := ns.player2_trust + 15 }
              else
                match move_made.player with
                | Player.Player1 => { ns with player1_trust := ns.player1_trust - 15 }
                | Player.Player2 => { ns with player2_trust := ns.player2_trust - 15 }
            else
              match move_made.player.opponent with
              | Player.Player1 => { ns with player1_trust := ns.player1_trust + 5 }
              | Player.Player2 => { ns with player2_trust := ns.player2_trust + 5 }
        | none => ns
  { new_state with move_history := new_state.move_history ++ [move_made] }

/-- `GameTree::is_terminal` from `game_tree.rs`. -/
def is_terminal (state : GameState) : Bool :=
  decide (state.round ≥ 20)
    || decide (state.player1_trust ≥ 100)
    || decide (state.player2_trust ≥ 100)
    || decide (state.player1_trust ≤ -50)
    || decide (state.player2_trust ≤ -50)

end GameTree

/-- `EvaluationWeights` from `evaluation.rs`. -/
structure EvaluationWeights where
  trust_differential : ℚ
  trust_absolute : ℚ
  round_progress : ℚ
  momentum : ℚ
  position_advantage : ℚ

/-- `EvaluationWeights::default` from `evaluation.rs`. -/
def EvaluationWeights.default : EvaluationWeights :=
  { trust_differential := 1.0
    trust_absolute := 0.5
    round_progress := 0.3
    momentum := 0.7
    position_advantage := 0.8 }

/-- `Evaluator` from `evaluation.rs`. -/
structure Evaluator where
  weights : EvaluationWeights

/-- `Evaluator::new` from `evaluation.rs`. -/
def Evaluator.new : Evaluator := { weights := EvaluationWeights.default }

namespace Evaluator

/-- `Evaluator::evaluate_trust_differential` from `evaluation.rs`. -/
def evaluate_trust_differential (_e : Evaluator) (state : GameState) (player : Player) : ℚ :=
  let my_trust := trust_of state player
  let opp_trust := trust_of state player.opponent
  let differential := my_trust - opp_trust
  min (max ((differential : ℚ) / 3.0) (-50.0)) 50.0

/-- `Evaluator::evaluate_trust_absolute` from `evaluation.rs`. -/
def evaluate_trust_absolute (_e : Evaluator) (state : GameState) (player : Player) : ℚ :=
  let my_trust := trust_of state player
  if my_trust ≥ 80 then 20.0
  else if my_trust ≤ 0 then -20.0
  else 0.0

/-- `Evaluator::evaluate_round_progress` from `evaluation.rs`. -/
def evaluate_round_progress (_e : Evaluator) (state : GameState) (player : Player) : ℚ :=
  let progress : ℚ := (state.round : ℚ) / 20.0
  let my_trust := trust_of state player
  let opp_trust := trust_of state player.opponent
  if progress > 0.75 then
    let lead := my_trust - opp_trust
    (lead : ℚ) * (progress * 2.0)
  else 0.0

/-- `Evaluator::evaluate_momentum` from `evaluation.rs`. -/
def evaluate_momentum (_e : Evaluator) (state : GameState) (player : Player) : ℚ :=
  if state.move_history.length < 3 then 0.0
  else
    let recent_moves := state.move_history.drop (state.move_history.length - 5)
    let my_moves := recent_moves.filter (fun m =>
      (player = Player.Player1 && m.player = Player.Player1)
        || (player = Player.Player2 && m.player = Player.Player2))
    if my_moves.isEmpty then 0.0
    else
      let confidence_avg :=
        (my_moves.map (fun m => m.confidence)).sum / (my_moves.length : ℚ)
      (confidence_avg - 0.5) * 20.0

/-- `Evaluator::evaluate_position_advantage` from `evaluation.rs`. -/
def evaluate_position_advantage (_e : Evaluator) (state : GameState) (player : Player) : ℚ :=
  let my_trust := trust_of state player
  let opp_trust := trust_of state player.opponent
  let a0 : ℚ := 0.0
  let a1 := if my_trust ≥ 90 then a0 + 30.0 else a0
  let a2 := if opp_trust ≤ -40 then a1 + 25.0 else a1
  let a3 := if my_trust ≤ -40 then a2 - 25.0 else a2
  let a4 := if opp_trust ≥ 90 then a3 - 30.0 else a3
  a4

/-- `Evaluator::evaluate` from `evaluation.rs`: the weighted sum of the
five terms, clamped by `score.max(-100.0).min(100.0)`. -/
def evaluate (e : Evaluator) (state : GameState) (player : Player) : ℚ :=
  let score :=
    e.evaluate_trust_differential state player * e.weights.trust_differential
      + e.evaluate_trust_absolute state player * e.weights.trust_absolute
      + e.evaluate_round_progress state player * e.weights.round_progress
      + e.evaluate_momentum state player * e.weights.momentum
      + e.evaluate_position_advantage state player * e.weights.position_advantage
  min (max score (-100.0)) 100.0

end Evaluator

namespace ffi

/-- `ffi::evaluate_state` from `ffi.rs`, with the boundary decoding
abstracted: the argument `game_state_json` is `some state` when the C string
decodes to a `GameState`, and `none` for every failing input (null pointer,
invalid UTF-8, or JSON parse error) — in each of those failure arms the
source returns `0.0`. -/
def evaluate_state (game_state_json : Option GameState) (player_id : Nat) : ℚ :=
  match game_state_json with
  | none => 0.0
  | some state =>
      let player := if player_id = 1 then Player.Player1 else Player.Player2
      Evaluator.new.evaluate state player
end ffi

/-- The `f64` value lattice used by the searches: finite scores together
with `f64::NEG_INFINITY` (modelled as `⊥`) and `f64::INFINITY` (modelled
as `⊤`). -/
abbrev Fl : Type := WithBot (WithTop ℚ)

/-- A finite `f64` value inside `Fl`. -/
def Fl.fin (q : ℚ) : Fl := ((q : WithTop ℚ) : Fl)

/-- The `{:?}` rendering of an `Action`, as produced by
`format!("\x7b:?\x7d", m.action)` in `AlphaBetaSearch::search`. -/
def Action.debug_fmt : Action → String
  | Action.MakeClaim => "MakeClaim"
  | Action.Challenge => "Challenge"
  | Action.Accept => "Accept"

/-- `SearchResult` from `lib.rs`, consumed by `MinimaxSearch::search`
(`time_ms` is wall-clock time and is not modelled). -/
structure SearchResult where
  best_move : Move
  evaluation : Fl
  nodes_explored : Nat
  depth_reached : Nat
deriving DecidableEq, Repr

/-- `ffi::MoveResult` from `ffi.rs`. -/
structure MoveResult where
  action : String
  confidence : ℚ
deriving DecidableEq, Repr

/-- `ffi::SearchResult` from `ffi.rs`, consumed by
`AlphaBetaSearch::search` (`time_ms` not modelled). -/
structure FfiSearchResult where
  best_move : Option MoveResult
  evaluation : Fl
  nodes_explored : Nat
  depth_reached : Nat
deriving DecidableEq, Repr

namespace MinimaxSearch

/-- The maximizing arm of the move loop in `MinimaxSearch::minimax`
(`minimax.rs`): `child m` is the recursive evaluation of the successor
reached by `m` paired with the nodes that recursion explored; the running
best is replaced exactly when `eval > max_eval`, and node counts
accumulate in `n`. -/
def loopMax (child : Move → Fl × Nat) :
    List Move → Fl → Option Move → Nat → Option Move × Fl × Nat
  | [], max_eval, best_move, n => (best_move, max_eval, n)
  | move_candidate :: rest, max_eval, best_move, n =>
      let r := child move_candidate
      if max_eval < r.1 then loopMax child rest r.1 (some move_candidate) (n + r.2)
      else loopMax child rest max_eval best_move (n + r.2)

/-- The minimizing arm of the move loop in `MinimaxSearch::minimax`. -/
def loopMin (child : Move → Fl × Nat) :
    List Move → Fl → Option Move → Nat → Option Move × Fl × Nat
  | [], min_eval, best_move, n => (best_move, min_eval, n)
  | move_candidate :: rest, min_eval, best_move, n =>
      let r := child move_candidate
      if r.1 < min_eval then loopMin child rest r.1 (some move_candidate) (n + r.2)
      else loopMin child rest min_eval best_move (n + r.2)

/-- `MinimaxSearch::minimax` from `minimax.rs`, parametrised by the
transition model `T` substituted for `GameTree::apply_move` (§8/§9 of the
spec: the testable properties assume a deterministic transition model).
Returns `(best_move, eval, nodes_explored)`; the third component counts
the `self.nodes_explored += 1` increments, i.e. the recursive calls.
The source's single test `depth == 0 || tree.is_terminal(state)` is split
into the `0` pattern and the `is_terminal` test of the successor pattern,
which agree with it in every case. -/
def minimax (T : GameState → Move → GameState) :
    GameState → Nat → Player → Bool → Option Move × Fl × Nat
  | state, 0, player, _is_maximizing =>
      (none, Fl.fin (Evaluator.new.evaluate state player), 1)
  | state, depth + 1, player, is_maximizing =>
      if GameTree.is_terminal state then
        (none, Fl.fin (Evaluator.new.evaluate state player), 1)
      else
        let moves := GameTree.generate_moves state player
        if moves.isEmpty then
          (none, Fl.fin (Evaluator.new.evaluate state player), 1)
        else if is_maximizing then
          loopMax (fun m => (minimax T (T state m) depth player.opponent false).2)
            moves ⊥ none 1
        else
          loopMin (fun m => (minimax T (T state m) depth player.opponent true).2)
            moves ⊤ none 1

/-- `MinimaxSearch::default_move` from `minimax.rs`. -/
def default_move (_state : GameState) (player : Player) : Move :=
  { action := Action.Accept, player := player, claim := none, confidence := 0.5 }

/-- `MinimaxSearch::search` from `minimax.rs` (`max_depth` is the
configured depth of the search object; timing dropped). -/
def search (T : GameState → Move → GameState) (max_depth : Nat)
    (state : GameState) (player : Player) : SearchResult :=
  let r := minimax T state max_depth player true
  { best_move := r.1.getD (default_move state player)
    evaluation := r.2.1
    nodes_explored := r.2.2
    depth_reached := max_depth }

end MinimaxSearch

namespace AlphaBetaSearch

/-- The maximizing arm of the move loop in `AlphaBetaSearch::alpha_beta`
(`alpha_beta.rs`): `child a m` is the recursive evaluation of the successor
reached by `m` under the window `(a, beta)`, paired with its node count.
After each child: best/value update on `eval > max_eval`, then
`alpha = alpha.max(eval)`, then the beta-cutoff test `beta <= alpha`. -/
def loopMax (child : Fl → Move → Fl × Nat) (beta : Fl) :
    List Move → Fl → Fl → Option Move → Nat → Option Move × Fl × Nat
  | [], _alpha, max_eval, best_move, n => (best_move, max_eval, n)
  | move_candidate :: rest, alpha, max_eval, best_move, n =>
      let r := child alpha move_candidate
      let max_eval2 := if max_eval < r.1 then r.1 else max_eval
      let best_move2 := if max_eval < r.1 then some move_candidate else best_move
      let alpha2 := max alpha r.1
      if beta ≤ alpha2 then (best_move2, max_eval2, n + r.2)
      else loopMax child beta rest alpha2 max_eval2 best_move2 (n + r.2)

/-- The minimizing arm of the move loop in `AlphaBetaSearch::alpha_beta`:
dual to `loopMax`, with `beta = beta.min(eval)` and the alpha-cutoff test
`beta <= alpha`. -/
def loopMin (child : Fl → Move → Fl × Nat) (alpha : Fl) :
    List Move → Fl → Fl → Option Move → Nat → Option Move × Fl × Nat
  | [], _beta, min_eval, best_move, n => (best_move, min_eval, n)
  | move_candidate :: rest, beta, min_eval, best_move, n =>
      let r := child beta move_candidate
      let min_eval2 := if r.1 < min_eval then r.1 else min_eval
      let best_move2 := if r.1 < min_eval then some move_candidate else best_move
      let beta2 := min beta r.1
      if beta2 ≤ alpha then (best_move2, min_eval2, n + r.2)
      else loopMin child alpha rest beta2 min_eval2 best_move2 (n + r.2)

/-- `AlphaBetaSearch::alpha_beta` from `alpha_beta.rs`, parametrised by the
transition model `T` exactly as `MinimaxSearch.minimax` is.  Returns
`(best_move, eval, nodes_explored)`. -/
def alpha_beta (T : GameState → Move → GameState) :
    GameState → Nat → Fl → Fl → Player → Bool → Option Move × Fl × Nat
  | state, 0, _alpha, _beta, player, _is_maximizing =>
      (none, Fl.fin (Evaluator.new.evaluate state player), 1)
  | state, depth + 1, alpha, beta, player, is_maximizing =>
      if GameTree.is_terminal state then
        (none, Fl.fin (Evaluator.new.evaluate state player), 1)
      else
        let moves := GameTree.generate_moves state player
        if moves.isEmpty then
          (none, Fl.fin (Evaluator.new.evaluate state player), 1)
        else if is_maximizing then
          loopMax (fun a m => (alpha_beta T (T state m) depth a beta player.opponent false).2)
            beta moves alpha ⊥ none 1
        else
          loopMin (fun b m => (alpha_beta T (T state m) depth alpha b player.opponent true).2)
            alpha moves beta ⊤ none 1

/-- `AlphaBetaSearch::parallel_alpha_beta` from `alpha_beta.rs`: the rayon
`par_iter().map(..).collect()` over root moves preserves move order; each
worker is a fresh `AlphaBetaSearch` (local node counter, discarded here as
in the source) searching its root child with fresh `±∞` bounds; `max_by`
keeps the LAST of equally-maximal results (Rust `Iterator::max_by`), and
`partial_cmp(..).unwrap_or(Equal)` is total comparison on `Fl`.  The
source's `unwrap()` is unreachable (`moves` is non-empty on that path) and
is modelled by `(none, ⊥)`. -/
def parallel_alpha_beta (T : GameState → Move → GameState)
    (state : GameState) (depth : Nat) (player : Player) : Option Move × Fl :=
  let moves := GameTree.generate_moves state player
  if moves.isEmpty then
    (none, Fl.fin (Evaluator.new.evaluate state player))
  else
    let results : List (Move × Fl) := moves.map (fun move_candidate =>
      let new_state := T state move_candidate
      (move_candidate,
        (alpha_beta T new_state (depth - 1) ⊥ ⊤ player.opponent false).2.1))
    match results.foldl (fun acc r =>
        match acc with
        | none => some r
        | some a => if a.2 ≤ r.2 then some r else some a) none with
    | some br => (some br.1, br.2)
    | none => (none, ⊥)

/-- `AlphaBetaSearch::search` from `alpha_beta.rs`.  `self.nodes_explored`
is reset to 0 at entry; in the parallel branch
(`enable_parallel && max_depth > 3`) it is never incremented again (the
workers' counters are local and discarded), so the result carries 0 there;
in the sequential branch it carries the count of `alpha_beta`. -/
def search (T : GameState → Move → GameState) (max_depth : Nat)
    (enable_parallel : Bool) (state : GameState) (player : Player) :
    FfiSearchResult :=
  if enable_parallel && decide (max_depth > 3) then
    let r := parallel_alpha_beta T state max_depth player
    { best_move := r.1.map (fun m =>
        { action := m.action.debug_fmt, confidence := m.confidence })
      evaluation := r.2
      nodes_explored := 0
      depth_reached := max_depth }
  else
    let r := alpha_beta T state max_depth ⊥ ⊤ player true
    { best_move := r.1.map (fun m =>
        { action := m.action.debug_fmt, confidence := m.confidence })
      evaluation := r.2.1
      nodes_explored := r.2.2
      depth_reached := max_depth }

end AlphaBetaSearch

/-! ## Concrete fixtures

States and moves used as concrete inputs by witnesses and
counterexamples.  `test_state` is the `create_test_state()` of the
source's test modules. -/

/-- The state built by `create_test_state()` in the source tests: round 1,
Claim phase, both trusts 50, no pending claim, empty history. -/
def test_state : GameState :=
  { round := 1, phase := Phase.Claim, player1_trust := 50, player2_trust := 50
    current_claim := none, move_history := [] }

/-- A Challenge-phase state with a pending low-boldness claim. -/
def challenge_pending_state : GameState :=
  { round := 1, phase := Phase.Challenge, player1_trust := 50, player2_trust := 50
    current_claim := some
      { description := "x", claim_type := ClaimType.Information
        boldness := 0.2, is_bluff := false }
    move_history := [] }

/-- The Challenge move generated by `generate_challenge_moves` for Player1. -/
def challenge_move : Move :=
  { action := Action.Challenge, player := Player.Player1, claim := none, confidence := 0.7 }

/-- The Accept move generated by `generate_challenge_moves` for Player1. -/
def accept_move : Move :=
  { action := Action.Accept, player := Player.Player1, claim := none, confidence := 0.6 }

/-- A MakeClaim move as generated in the Claim phase for Player1. -/
def make_claim_move : Move :=
  { action := Action.MakeClaim, player := Player.Player1
    claim := some
      { description := "c", claim_type := ClaimType.Prediction
        boldness := 0.4, is_bluff := false }
    confidence := 0.88 }

/-! ## Claims about the transition model and the evaluator -/

/-- C4: for every game state (any round, trust values and move history)
and every player, `Evaluator::evaluate` returns a value in the closed
interval `[-100, 100]` — the weighted sum is clamped by
`score.max(-100.0).min(100.0)`. -/
theorem evaluate_within_minus100_100 (s : GameState) (p : Player) :
    -100 ≤ Evaluator.new.evaluate s p ∧ Evaluator.new.evaluate s p ≤ 100 := by
  unfold Evaluator.evaluate
  constructor
  · exact le_min (le_trans (by norm_num) (le_max_right _ _)) (by norm_num)
  · exact min_le_of_right_le (by norm_num)

/-- C6: `GameTree::is_terminal` is true exactly when round ≥ 20, or either
trust is ≥ 100, or either trust is ≤ −50; in particular it is true at
round 20 for any trusts, true at trust 100 or −50 for any round, and false
at round 5 with both trusts 50. -/
theorem is_terminal_characterisation :
    (∀ s : GameState, GameTree.is_terminal s = true ↔
      (20 ≤ s.round ∨ 100 ≤ s.player1_trust ∨ 100 ≤ s.player2_trust ∨
        s.player1_trust ≤ -50 ∨ s.player2_trust ≤ -50)) ∧
    (∀ ph t1 t2 c h, GameTree.is_terminal ⟨20, ph, t1, t2, c, h⟩ = true) ∧
    (∀ r ph t c h, GameTree.is_terminal ⟨r, ph, 100, t, c, h⟩ = true) ∧
    (∀ r ph t c h, GameTree.is_terminal ⟨r, ph, t, 100, c, h⟩ = true) ∧
    (∀ r ph t c h, GameTree.is_terminal ⟨r, ph, -50, t, c, h⟩ = true) ∧
    (∀ r ph t c h, GameTree.is_terminal ⟨r, ph, t, -50, c, h⟩ = true) ∧
    (∀ ph c h, GameTree.is_terminal ⟨5, ph, 50, 50, c, h⟩ = false) := by
  refine ⟨?_, ?_, ?_, ?_, ?_, ?_, ?_⟩ <;> intros <;>
    simp [GameTree.is_terminal] <;> omega

/-- C9: `GameTree::apply_move` never changes the `round` field, whatever
the draw, state and move: no operation of the core increments `round`, so
a search can only see `round ≥ 20` if it already held at the root. -/
theorem apply_move_preserves_round (draw : ℚ) (s : GameState) (m : Move) :
    (GameTree.apply_move draw s m).round = s.round := by
  obtain ⟨act, pl, cl, conf⟩ := m
  unfold GameTree.apply_move
  cases act <;> rcases hcc : s.current_claim with _ | pending <;>
    simp [hcc] <;> split <;> cases pl <;> simp [Player.opponent]

/-- C8: applying an Accept move to a state with a pending claim raises the
trust of the acting player's opponent (the claim maker) by exactly 5,
leaves the acting player's own trust unchanged, and moves the phase to
Resolution, for every draw. -/
theorem apply_move_accept_gives_claimer_5 (draw : ℚ) (s : GameState) (m : Move)
    (c : Claim) (hclaim : s.current_claim = some c)
    (haction : m.action = Action.Accept) :
    trust_of (GameTree.apply_move draw s m) m.player.opponent
        = trust_of s m.player.opponent + 5 ∧
    trust_of (GameTree.apply_move draw s m) m.player = trust_of s m.player ∧
    (GameTree.apply_move draw s m).phase = Phase.Resolution := by
  obtain ⟨act, pl, cl, conf⟩ := m
  simp only [Move.action] at haction
  subst haction
  cases pl <;>
    simp [GameTree.apply_move, hclaim, trust_of, Player.opponent]

/-- Witness for C8 at a concrete input: Player1 accepts the pending claim
of `challenge_pending_state`, so Player2 (the claim maker) gains 5. -/
theorem apply_move_accept_gives_claimer_5_witness :
    trust_of (GameTree.apply_move 0 challenge_pending_state accept_move)
        accept_move.player.opponent
      = trust_of challenge_pending_state accept_move.player.opponent + 5 ∧
    trust_of (GameTree.apply_move 0 challenge_pending_state accept_move)
        accept_move.player
      = trust_of challenge_pending_state accept_move.player ∧
    (GameTree.apply_move 0 challenge_pending_state accept_move).phase
      = Phase.Resolution :=
  apply_move_accept_gives_claimer_5 0 challenge_pending_state accept_move
    { description := "x", claim_type := ClaimType.Information
      boldness := 0.2, is_bluff := false } rfl rfl

/-- C2 counterexample: `apply_move` is not a function of `(state, move)`
alone — at `challenge_pending_state` with the Challenge move, the draws 0
and 1 fall on the two sides of the success probability 0.54 and yield
different trust outcomes (35 vs 65 for Player1). -/
theorem apply_move_not_deterministic :
    GameTree.apply_move 0 challenge_pending_state challenge_move ≠
      GameTree.apply_move 1 challenge_pending_state challenge_move := by
  with_unfolding_all decide

/-- C2 (amended): `apply_move` never mutates its input (it is a pure
function of `(draw, state, move)` in this embedding, as the source clones
the borrowed state), and it is independent of the random draw — hence a
function of `(state, move)` alone — in every case except a Challenge move
with a pending claim. -/
theorem apply_move_deterministic_unless_challenge (d1 d2 : ℚ)
    (s : GameState) (m : Move)
    (h : m.action = Action.Challenge → s.current_claim = none) :
    GameTree.apply_move d1 s m = GameTree.apply_move d2 s m := by
  obtain ⟨act, pl, cl, conf⟩ := m
  cases act
  case MakeClaim => rfl
  case Challenge =>
    have hc := h rfl
    simp [GameTree.apply_move, hc]
  case Accept =>
    rcases hcc : s.current_claim with _ | pending <;>
      simp [GameTree.apply_move, hcc]

/-- Witness for the amended C2 at a concrete input: a MakeClaim move is
draw-independent. -/
theorem apply_move_deterministic_unless_challenge_witness :
    GameTree.apply_move 0 test_state make_claim_move =
      GameTree.apply_move 1 test_state make_claim_move :=
  apply_move_deterministic_unless_challenge 0 1 test_state make_claim_move
    (fun _ => rfl)

/-! ## Claims about move generation -/

/-- Every move produced by `generate_claim_moves` is a MakeClaim move by
the requested player carrying a claim whose `is_bluff` is the boldness
heuristic and whose confidence is `1 − boldness·0.3`. -/
theorem mem_generate_claim_moves {st : GameState} {p : Player} {m : Move}
    (hm : m ∈ GameTree.generate_claim_moves st p) :
    m.action = Action.MakeClaim ∧ m.player = p ∧
      ∃ c, m.claim = some c ∧ c.is_bluff = decide (c.boldness > 0.5) ∧
        m.confidence = 1 - c.boldness * 0.3 := by
  unfold GameTree.generate_claim_moves at hm
  simp only [List.mem_flatten, List.mem_map] at hm
  obtain ⟨l, ⟨b, hb, rfl⟩, hml⟩ := hm
  simp only [List.mem_map] at hml
  obtain ⟨ct, hct, rfl⟩ := hml
  exact ⟨rfl, rfl, _, rfl, rfl, by norm_num⟩

/-- C7: move generation per phase: 16 MakeClaim moves in the Claim phase —
one per boldness level in \x7b0.2, 0.4, 0.6, 0.8\x7d and claim type, each
with `is_bluff = (boldness > 0.5)` and `confidence = 1 − boldness·0.3` —
exactly the two moves Challenge (confidence 0.7) and Accept (confidence
0.6) in the Challenge phase, and no moves in the Resolution phase. -/
theorem generate_moves_per_phase (s : GameState) (p : Player) :
    (s.phase = Phase.Claim →
      (GameTree.generate_moves s p).length = 16 ∧
      (∀ m ∈ GameTree.generate_moves s p,
        m.action = Action.MakeClaim ∧ m.player = p ∧
        ∃ c, m.claim = some c ∧ c.is_bluff = decide (c.boldness > 0.5) ∧
          m.confidence = 1 - c.boldness * 0.3) ∧
      (GameTree.generate_moves s p).map
          (fun m => (m.claim.map Claim.boldness, m.claim.map Claim.claim_type)) =
        [(some 0.2, some ClaimType.Information), (some 0.2, some ClaimType.Prediction),
         (some 0.2, some ClaimType.Accusation), (some 0.2, some ClaimType.Alliance),
         (some 0.4, some ClaimType.Information), (some 0.4, some ClaimType.Prediction),
         (some 0.4, some ClaimType.Accusation), (some 0.4, some ClaimType.Alliance),
         (some 0.6, some ClaimType.Information), (some 0.6, some ClaimType.Prediction),
         (some 0.6, some ClaimType.Accusation), (some 0.6, some ClaimType.Alliance),
         (some 0.8, some ClaimType.Information), (some 0.8, some ClaimType.Prediction),
         (some 0.8, some ClaimType.Accusation), (some 0.8, some ClaimType.Alliance)]) ∧
    (s.phase = Phase.Challenge →
      GameTree.generate_moves s p =
        [ { action := Action.Challenge, player := p, claim := none, confidence := 0.7 },
          { action := Action.Accept, player := p, claim := none, confidence := 0.6 } ]) ∧
    (s.phase = Phase.Resolution → GameTree.generate_moves s p = []) := by
  obtain ⟨r, ph, t1, t2, c, h⟩ := s
  cases ph
  case Claim =>
    exact ⟨fun _ => ⟨rfl,
      fun m hm => @mem_generate_claim_moves ⟨r, Phase.Claim, t1, t2, c, h⟩ p m hm, rfl⟩,
      fun hc => Phase.noConfusion hc, fun hc => Phase.noConfusion hc⟩
  case Challenge =>
    exact ⟨fun hc => Phase.noConfusion hc, fun _ => rfl,
      fun hc => Phase.noConfusion hc⟩
  case Resolution =>
    exact ⟨fun hc => Phase.noConfusion hc, fun hc => Phase.noConfusion hc,
      fun _ => rfl⟩

/-! ## Claims about the boundary layer -/

/-- C5 counterexample: the decode-failure return of `ffi::evaluate_state`
(the constant `0.0`) coincides with the legitimate evaluation of the
decoded test state, so a failing input is NOT distinguishable from every
legitimate evaluation. -/
theorem evaluate_state_failure_collides :
    ffi.evaluate_state none 1 =
      Evaluator.new.evaluate test_state Player.Player1 := by
  with_unfolding_all decide

/-- C5 (amended): `ffi::evaluate_state` reports every decode/deserialize
failure by returning the default value `0.0` (not a distinct failure
signal), a value legitimate evaluations also attain. -/
theorem evaluate_state_failure_returns_default (player_id : Nat) :
    ffi.evaluate_state none player_id = 0 := by
  norm_num [ffi.evaluate_state]

/-! ## Claims about the searches -/

/-! ### Fold lemmas for running maxima and minima -/

/-- Pulling a `max` out of the accumulator of a running-maximum fold. -/
theorem foldl_max_pull {α : Type*} {ι : Type*} [LinearOrder α] (f : ι → α)
    (l : List ι) (x : α) :
    ∀ acc : α, l.foldl (fun a m => max a (f m)) (max x acc)
      = max x (l.foldl (fun a m => max a (f m)) acc) := by
  induction l with
  | nil => intro acc; rfl
  | cons m rest ih =>
      intro acc
      simp only [List.foldl_cons]
      rw [max_assoc, ih]

/-- The accumulator bounds a running-maximum fold from below. -/
theorem le_foldl_max {α : Type*} {ι : Type*} [LinearOrder α] (f : ι → α)
    (l : List ι) : ∀ acc : α, acc ≤ l.foldl (fun a m => max a (f m)) acc := by
  induction l with
  | nil => intro acc; exact le_rfl
  | cons m rest ih =>
      intro acc
      exact le_trans (le_max_left _ _) (ih _)

/-- Pulling a `min` out of the accumulator of a running-minimum fold. -/
theorem foldl_min_pull {α : Type*} {ι : Type*} [LinearOrder α] (f : ι → α)
    (l : List ι) (x : α) :
    ∀ acc : α, l.foldl (fun a m => min a (f m)) (min x acc)
      = min x (l.foldl (fun a m => min a (f m)) acc) := by
  induction l with
  | nil => intro acc; rfl
  | cons m rest ih =>
      intro acc
      simp only [List.foldl_cons]
      rw [min_assoc, ih]

/-- The accumulator bounds a running-minimum fold from above. -/
theorem foldl_min_le {α : Type*} {ι : Type*} [LinearOrder α] (f : ι → α)
    (l : List ι) : ∀ acc : α, l.foldl (fun a m => min a (f m)) acc ≤ acc := by
  induction l with
  | nil => intro acc; exact le_rfl
  | cons m rest ih =>
      intro acc
      exact le_trans (ih _) (min_le_left _ _)

/-! ### The Knuth–Moore fail-soft specification -/

/-- How the value `g` returned by a fail-soft alpha-beta call under the
window `(alpha, beta)` relates to the true minimax value `v`: failing low
it upper-bounds `v`, failing high it lower-bounds `v`, and strictly inside
the window it equals `v`. -/
def KM (g alpha beta v : Fl) : Prop :=
  (g ≤ alpha → v ≤ g) ∧ (beta ≤ g → g ≤ v) ∧ (alpha < g → g < beta → g = v)

/-- The evaluation computed by the maximizing minimax loop is the running
maximum of the children evaluations. -/
theorem MinimaxSearch.loopMax_eval (child : Move → Fl × Nat) :
    ∀ (l : List Move) (acc : Fl) (best : Option Move) (n : Nat),
      (MinimaxSearch.loopMax child l acc best n).2.1
        = l.foldl (fun a m => max a (child m).1) acc := by
  intro l
  induction l with
  | nil => intro acc best n; rfl
  | cons m rest ih =>
      intro acc best n
      simp only [MinimaxSearch.loopMax, List.foldl_cons]
      by_cases h : acc < (child m).1
      · rw [if_pos h, ih, max_eq_right h.le]
      · rw [if_neg h, ih, max_eq_left (not_lt.mp h)]

/-- The evaluation computed by the minimizing minimax loop is the running
minimum of the children evaluations. -/
theorem MinimaxSearch.loopMin_eval (child : Move → Fl × Nat) :
    ∀ (l : List Move) (acc : Fl) (best : Option Move) (n : Nat),
      (MinimaxSearch.loopMin child l acc best n).2.1
        = l.foldl (fun a m => min a (child m).1) acc := by
  intro l
  induction l with
  | nil => intro acc best n; rfl
  | cons m rest ih =>
      intro acc best n
      simp only [MinimaxSearch.loopMin, List.foldl_cons]
      by_cases h : (child m).1 < acc
      · rw [if_pos h, ih, min_eq_right h.le]
      · rw [if_neg h, ih, min_eq_left (not_lt.mp h)]

/-- Knuth–Moore invariant for the maximizing alpha-beta loop: if every
child call satisfies the fail-soft specification for its window, the loop
value satisfies it for the node's window, with the true value being the
running maximum of the children's true values. -/
theorem AlphaBetaSearch.loopMax_KM (child : Fl → Move → Fl × Nat)
    (beta : Fl) (tv : Move → Fl)
    (hchild : ∀ a m, a < beta → KM (child a m).1 a beta (tv m)) :
    ∀ (l : List Move) (alpha maxEval : Fl) (best : Option Move) (n : Nat),
      alpha < beta → maxEval ≤ alpha →
      maxEval ≤ (AlphaBetaSearch.loopMax child beta l alpha maxEval best n).2.1 ∧
      KM (AlphaBetaSearch.loopMax child beta l alpha maxEval best n).2.1
        alpha beta (l.foldl (fun a m => max a (tv m)) maxEval) := by
  intro l
  induction l with
  | nil =>
      intro alpha maxEval best n hab hacc
      exact ⟨le_rfl, fun _ => le_rfl, fun _ => le_rfl, fun _ _ => rfl⟩
  | cons m rest ih =>
      intro alpha maxEval best n hab hacc
      obtain ⟨c1, c2, c3⟩ := hchild alpha m hab
      simp only [AlphaBetaSearch.loopMax, List.foldl_cons]
      set ev := (child alpha m).1 with hev
      set W := rest.foldl (fun a m => max a (tv m)) maxEval with hWdef
      have hsplitV : rest.foldl (fun a m => max a (tv m)) (max maxEval (tv m))
          = max (tv m) W := by
        rw [max_comm maxEval (tv m), foldl_max_pull]
      have hg2 : (if maxEval < ev then ev else maxEval) = max maxEval ev := by
        by_cases h : maxEval < ev
        · rw [if_pos h, max_eq_right h.le]
        · rw [if_neg h, max_eq_left (not_lt.mp h)]
      rw [hg2, hsplitV]
      have hmW : maxEval ≤ W := le_foldl_max tv rest maxEval
      by_cases hcut : beta ≤ max alpha ev
      · rw [if_pos hcut]
        have hbev : beta ≤ ev := by
          rcases le_max_iff.mp hcut with h | h
          · exact absurd h (not_le.mpr hab)
          · exact h
        have hevtv : ev ≤ tv m := c2 hbev
        refine ⟨le_max_left _ _, ?_, ?_, ?_⟩
        · intro h
          exact absurd hab (not_lt.mpr
            (le_trans (le_trans hbev (le_max_right _ _)) h))
        · intro _
          exact max_le (le_trans hmW (le_max_right _ _))
            (le_trans hevtv (le_max_left _ _))
        · intro _ hgb
          exact absurd (lt_of_le_of_lt (le_trans hbev (le_max_right _ _)) hgb)
            (lt_irrefl _)
      · rw [if_neg hcut]
        have hacut : max alpha ev < beta := not_le.mp hcut
        have hacc2 : max maxEval ev ≤ max alpha ev :=
          max_le_max hacc le_rfl
        obtain ⟨i4, i1, i2, i3⟩ :=
          ih (max alpha ev) (max maxEval ev)
            (if maxEval < ev then some m else best)
            (n + (child alpha m).2) hacut hacc2
        have hsplitVt : rest.foldl (fun a m => max a (tv m)) (max maxEval ev)
            = max ev W := by
          rw [max_comm maxEval ev, foldl_max_pull]
        rw [hsplitVt] at i1 i2 i3
        set g := (AlphaBetaSearch.loopMax child beta rest (max alpha ev)
          (max maxEval ev) (if maxEval < ev then some m else best)
          (n + (child alpha m).2)).2.1 with hgdef
        have hevg : ev ≤ g := le_trans (le_max_right maxEval ev) i4
        refine ⟨le_trans (le_max_left maxEval ev) i4, ?_, ?_, ?_⟩
        · -- failing low
          intro hga
          have hvt := i1 (le_trans hga (le_max_left _ _))
          obtain ⟨hevle, hWle⟩ := max_le_iff.mp hvt
          exact max_le (le_trans (c1 (le_trans hevle hga)) hevle) hWle
        · -- failing high
          intro hbg
          rcases le_max_iff.mp (i2 hbg) with h | h
          · exact le_trans (le_trans h (c2 (le_trans hbg h)))
              (le_max_left _ _)
          · exact le_trans h (le_max_right _ _)
        · -- inside the window
          intro hag hgb
          by_cases hga2 : g ≤ max alpha ev
          · have hgev : g ≤ ev := by
              rcases le_max_iff.mp hga2 with h | h
              · exact absurd hag (not_lt.mpr h)
              · exact h
            have hgeqev : g = ev := le_antisymm hgev hevg
            have hWg : W ≤ g := le_trans (le_max_right ev W) (i1 hga2)
            have htvm : ev = tv m := by
              refine c3 ?_ ?_
              · rw [← hgeqev]; exact hag
              · rw [← hgeqev]; exact hgb
            rw [← htvm, ← hgeqev]
            exact (max_eq_left hWg).symm
          · have hag2 : max alpha ev < g := not_le.mp hga2
            have hgVt := i3 hag2 hgb
            rcases le_or_lt ev alpha with hevle | hevgt
            · have htv : tv m ≤ ev := c1 hevle
              have hgW : g = W := by
                rcases max_choice ev W with h | h
                · rw [h] at hgVt
                  exact absurd hag (not_lt.mpr (hgVt ▸ hevle))
                · rw [h] at hgVt; exact hgVt
              have htvW : tv m ≤ W := le_of_lt
                (lt_of_le_of_lt (le_trans htv hevle) (hgW ▸ hag))
              rw [hgW]
              exact (max_eq_right htvW).symm
            · have hevb : ev < beta := lt_of_le_of_lt hevg hgb
              have htvm : ev = tv m := c3 hevgt hevb
              rw [hgVt, htvm]

/-- Knuth–Moore invariant for the minimizing alpha-beta loop, dual to
`AlphaBetaSearch.loopMax_KM`. -/
theorem AlphaBetaSearch.loopMin_KM (child : Fl → Move → Fl × Nat)
    (alpha : Fl) (tv : Move → Fl)
    (hchild : ∀ b m, alpha < b → KM (child b m).1 alpha b (tv m)) :
    ∀ (l : List Move) (beta minEval : Fl) (best : Option Move) (n : Nat),
      alpha < beta → beta ≤ minEval →
      (AlphaBetaSearch.loopMin child alpha l beta minEval best n).2.1 ≤ minEval ∧
      KM (AlphaBetaSearch.loopMin child alpha l beta minEval best n).2.1
        alpha beta (l.foldl (fun a m => min a (tv m)) minEval) := by
  intro l
  induction l with
  | nil =>
      intro beta minEval best n hab hacc
      exact ⟨le_rfl, fun _ => le_rfl, fun _ => le_rfl, fun _ _ => rfl⟩
  | cons m rest ih =>
      intro beta minEval best n hab hacc
      obtain ⟨c1, c2, c3⟩ := hchild beta m hab
      simp only [AlphaBetaSearch.loopMin, List.foldl_cons]
      set ev := (child beta m).1 with hev
      set W := rest.foldl (fun a m => min a (tv m)) minEval with hWdef
      have hsplitV : rest.foldl (fun a m => min a (tv m)) (min minEval (tv m))
          = min (tv m) W := by
        rw [min_comm minEval (tv m), foldl_min_pull]
      have hg2 : (if ev < minEval then ev else minEval) = min minEval ev := by
        by_cases h : ev < minEval
        · rw [if_pos h, min_eq_right h.le]
        · rw [if_neg h, min_eq_left (not_lt.mp h)]
      rw [hg2, hsplitV]
      have hmW : W ≤ minEval := foldl_min_le tv rest minEval
      by_cases hcut : min beta ev ≤ alpha
      · rw [if_pos hcut]
        have hbev : ev ≤ alpha := by
          rcases min_le_iff.mp hcut with h | h
          · exact absurd h (not_le.mpr hab)
          · exact h
        have hevtv : tv m ≤ ev := c1 hbev
        refine ⟨min_le_left _ _, ?_, ?_, ?_⟩
        · intro _
          exact le_min (le_trans (min_le_right _ _) hmW)
            (le_trans (min_le_left _ _) hevtv)
        · intro h
          exact absurd hab (not_lt.mpr
            (le_trans h (le_trans (min_le_right _ _) hbev)))
        · intro hag _
          exact absurd (lt_of_lt_of_le hag
            (le_trans (min_le_right _ _) hbev)) (lt_irrefl _)
      · rw [if_neg hcut]
        have hacut : alpha < min beta ev := not_le.mp hcut
        have hacc2 : min beta ev ≤ min minEval ev :=
          min_le_min hacc le_rfl
        obtain ⟨i4, i1, i2, i3⟩ :=
          ih (min beta ev) (min minEval ev)
            (if ev < minEval then some m else best)
            (n + (child beta m).2) hacut hacc2
        have hsplitVt : rest.foldl (fun a m => min a (tv m)) (min minEval ev)
            = min ev W := by
          rw [min_comm minEval ev, foldl_min_pull]
        rw [hsplitVt] at i1 i2 i3
        set g := (AlphaBetaSearch.loopMin child alpha rest (min beta ev)
          (min minEval ev) (if ev < minEval then some m else best)
          (n + (child beta m).2)).2.1 with hgdef
        have hevg : g ≤ ev := le_trans i4 (min_le_right minEval ev)
        refine ⟨le_trans i4 (min_le_left minEval ev), ?_, ?_, ?_⟩
        · -- failing low
          intro hga
          rcases min_le_iff.mp (i1 hga) with h | h
          · exact le_trans (min_le_left _ _)
              (le_trans (c1 (le_trans h hga)) h)
          · exact le_trans (min_le_right _ _) h
        · -- failing high
          intro hbg
          obtain ⟨hgev, hgW⟩ := le_min_iff.mp
            (i2 (le_trans (min_le_left beta ev) hbg))
          exact le_min (le_trans hgev (c2 (le_trans hbg hgev))) hgW
        · -- inside the window
          intro hag hgb
          by_cases hgb2 : min beta ev ≤ g
          · have hgev2 : ev ≤ g := by
              rcases min_le_iff.mp hgb2 with h | h
              · exact absurd hgb (not_lt.mpr h)
              · exact h
            have hgeqev : g = ev := le_antisymm hevg hgev2
            have hWg : g ≤ W := (le_min_iff.mp (i2 hgb2)).2
            have htvm : ev = tv m := by
              refine c3 ?_ ?_
              · rw [← hgeqev]; exact hag
              · rw [← hgeqev]; exact hgb
            rw [← htvm, ← hgeqev]
            exact (min_eq_left hWg).symm
          · have hgb2' : g < min beta ev := not_le.mp hgb2
            have hgVt := i3 hag hgb2'
            rcases le_or_lt beta ev with hbev2 | hevlt
            · have htv : ev ≤ tv m := c2 hbev2
              have hgW : g = W := by
                rcases min_choice ev W with h | h
                · rw [h] at hgVt
                  exact absurd hgb (not_lt.mpr (hgVt.symm ▸ hbev2))
                · rw [h] at hgVt; exact hgVt
              have hWtv : W ≤ tv m := le_of_lt
                (lt_of_lt_of_le (hgW ▸ hgb) (le_trans hbev2 htv))
              rw [hgW]
              exact (min_eq_right hWtv).symm
            · have htvm : ev = tv m := c3 (lt_of_lt_of_le hag hevg) hevlt
              rw [hgVt, htvm]

/-- Knuth–Moore at node level: for every window `alpha < beta`, the value
returned by `alpha_beta` satisfies the fail-soft specification with
respect to the minimax value of the same node, for any transition model
`T`. -/
theorem alpha_beta_KM (T : GameState → Move → GameState) :
    ∀ (depth : Nat) (s : GameState) (p : Player) (b : Bool) (alpha beta : Fl),
      alpha < beta →
      KM (AlphaBetaSearch.alpha_beta T s depth alpha beta p b).2.1 alpha beta
        (MinimaxSearch.minimax T s depth p b).2.1 := by
  intro depth
  induction depth with
  | zero =>
      intro s p b alpha beta _
      exact ⟨fun _ => le_rfl, fun _ => le_rfl, fun _ _ => rfl⟩
  | succ d ih =>
      intro s p b alpha beta hab
      simp only [AlphaBetaSearch.alpha_beta, MinimaxSearch.minimax]
      by_cases ht : GameTree.is_terminal s = true
      · simp [ht]
        exact ⟨fun _ => le_rfl, fun _ => le_rfl, fun _ _ => rfl⟩
      · by_cases hmv : (GameTree.generate_moves s p).isEmpty = true
        · simp [ht, hmv]
          exact ⟨fun _ => le_rfl, fun _ => le_rfl, fun _ _ => rfl⟩
        · cases b
          · simp only [ht, hmv, Bool.false_eq_true, if_false]
            rw [MinimaxSearch.loopMin_eval]
            exact (AlphaBetaSearch.loopMin_KM
              (fun bb m =>
                (AlphaBetaSearch.alpha_beta T (T s m) d alpha bb p.opponent true).2)
              alpha
              (fun m => (MinimaxSearch.minimax T (T s m) d p.opponent true).2.1)
              (fun bb m hbb => ih (T s m) p.opponent true alpha bb hbb)
              (GameTree.generate_moves s p) beta ⊤ none 1 hab le_top).2
          · simp only [ht, hmv, Bool.false_eq_true, if_false, reduceIte]
            rw [MinimaxSearch.loopMax_eval]
            exact (AlphaBetaSearch.loopMax_KM
              (fun a m =>
                (AlphaBetaSearch.alpha_beta T (T s m) d a beta p.opponent false).2)
              beta
              (fun m => (MinimaxSearch.minimax T (T s m) d p.opponent false).2.1)
              (fun a m ha => ih (T s m) p.opponent false a beta ha)
              (GameTree.generate_moves s p) alpha ⊥ none 1 hab bot_le).2

/-- A running-maximum fold whose accumulator is not `⊥` is not `⊥`. -/
theorem foldl_max_ne_bot {α : Type*} {ι : Type*} [LinearOrder α] [OrderBot α]
    (f : ι → α) (l : List ι) (acc : α) (hacc : acc ≠ ⊥) :
    l.foldl (fun a m => max a (f m)) acc ≠ ⊥ :=
  fun h => hacc (le_bot_iff.mp (h ▸ le_foldl_max f l acc))

/-- A running-maximum fold over values that are not `⊤`, from an
accumulator that is not `⊤`, is not `⊤`. -/
theorem foldl_max_ne_top {α : Type*} {ι : Type*} [LinearOrder α] [OrderTop α]
    (f : ι → α) :
    ∀ (l : List ι) (acc : α), acc ≠ ⊤ → (∀ m ∈ l, f m ≠ ⊤) →
      l.foldl (fun a m => max a (f m)) acc ≠ ⊤ := by
  intro l
  induction l with
  | nil => intro acc hacc _; exact hacc
  | cons m rest ih =>
      intro acc hacc hl
      refine ih (max acc (f m)) ?_ (fun x hx => hl x (List.mem_cons_of_mem m hx))
      intro h
      rcases max_eq_top.mp h with h | h
      · exact hacc h
      · exact hl m (List.mem_cons_self m rest) h

/-- A running-minimum fold whose accumulator is not `⊤` is not `⊤`. -/
theorem foldl_min_ne_top {α : Type*} {ι : Type*} [LinearOrder α] [OrderTop α]
    (f : ι → α) (l : List ι) (acc : α) (hacc : acc ≠ ⊤) :
    l.foldl (fun a m => min a (f m)) acc ≠ ⊤ :=
  fun h => hacc (top_le_iff.mp (h ▸ foldl_min_le f l acc))

/-- A running-minimum fold over values that are not `⊥`, from an
accumulator that is not `⊥`, is not `⊥`. -/
theorem foldl_min_ne_bot {α : Type*} {ι : Type*} [LinearOrder α] [OrderBot α]
    (f : ι → α) :
    ∀ (l : List ι) (acc : α), acc ≠ ⊥ → (∀ m ∈ l, f m ≠ ⊥) →
      l.foldl (fun a m => min a (f m)) acc ≠ ⊥ := by
  intro l
  induction l with
  | nil => intro acc hacc _; exact hacc
  | cons m rest ih =>
      intro acc hacc hl
      refine ih (min acc (f m)) ?_ (fun x hx => hl x (List.mem_cons_of_mem m hx))
      intro h
      rcases min_eq_bot.mp h with h | h
      · exact hacc h
      · exact hl m (List.mem_cons_self m rest) h

/-- The minimax value is always a finite evaluation: never `⊥` (the
`f64::NEG_INFINITY` seed) and never `⊤` (the `f64::INFINITY` seed). -/
theorem minimax_value_finite (T : GameState → Move → GameState) :
    ∀ (depth : Nat) (s : GameState) (p : Player) (b : Bool),
      (MinimaxSearch.minimax T s depth p b).2.1 ≠ ⊥ ∧
      (MinimaxSearch.minimax T s depth p b).2.1 ≠ ⊤ := by
  have hfin : ∀ q : ℚ, Fl.fin q ≠ ⊥ ∧ Fl.fin q ≠ ⊤ := by
    intro q
    constructor
    · exact WithBot.coe_ne_bot
    · intro h
      rw [← WithBot.coe_top] at h
      exact WithTop.coe_ne_top (WithBot.coe_inj.mp h)
  intro depth
  induction depth with
  | zero => intro s p b; exact hfin _
  | succ d ih =>
      intro s p b
      simp only [MinimaxSearch.minimax]
      by_cases ht : GameTree.is_terminal s = true
      · simp only [ht, if_true]; exact hfin _
      · rcases hmoves : GameTree.generate_moves s p with _ | ⟨mv, rest⟩
        · simp [ht, hmoves]; exact hfin _
        · cases b
          · simp only [ht, hmoves, List.isEmpty_cons, Bool.false_eq_true,
              if_false, reduceIte]
            rw [MinimaxSearch.loopMin_eval]
            constructor
            · exact foldl_min_ne_bot
                (fun m => (MinimaxSearch.minimax T (T s m) d p.opponent true).2.1)
                (mv :: rest) ⊤ top_ne_bot
                (fun x _ => (ih (T s x) p.opponent true).1)
            · simp only [List.foldl_cons]
              refine foldl_min_ne_top _ _ _ ?_
              exact fun h =>
                (ih (T s mv) p.opponent true).2 (min_eq_top.mp h).2
          · simp only [ht, hmoves, List.isEmpty_cons, Bool.false_eq_true,
              if_false, reduceIte]
            rw [MinimaxSearch.loopMax_eval]
            constructor
            · simp only [List.foldl_cons]
              refine foldl_max_ne_bot _ _ _ ?_
              exact fun h =>
                (ih (T s mv) p.opponent false).1 (max_eq_bot.mp h).2
            · exact foldl_max_ne_top
                (fun m => (MinimaxSearch.minimax T (T s m) d p.opponent false).2.1)
                (mv :: rest) ⊥ bot_ne_top
                (fun x _ => (ih (T s x) p.opponent false).2)

/-- Sequential alpha-beta seeded with the full window `(−∞, +∞)` returns
exactly the minimax value, at every node kind. -/
theorem alpha_beta_root_value (T : GameState → Move → GameState)
    (s : GameState) (depth : Nat) (p : Player) (b : Bool) :
    (AlphaBetaSearch.alpha_beta T s depth ⊥ ⊤ p b).2.1
      = (MinimaxSearch.minimax T s depth p b).2.1 := by
  obtain ⟨k1, k2, k3⟩ := alpha_beta_KM T depth s p b ⊥ ⊤ bot_lt_top
  obtain ⟨hvb, hvt⟩ := minimax_value_finite T depth s p b
  have hgb : (⊥ : Fl) < (AlphaBetaSearch.alpha_beta T s depth ⊥ ⊤ p b).2.1 := by
    rcases eq_or_ne (AlphaBetaSearch.alpha_beta T s depth ⊥ ⊤ p b).2.1 ⊥
        with h | h
    · exact absurd (le_bot_iff.mp (h ▸ k1 (le_of_eq h))) hvb
    · exact bot_lt_iff_ne_bot.mpr h
  have hgt : (AlphaBetaSearch.alpha_beta T s depth ⊥ ⊤ p b).2.1 < ⊤ := by
    rcases eq_or_ne (AlphaBetaSearch.alpha_beta T s depth ⊥ ⊤ p b).2.1 ⊤
        with h | h
    · exact absurd (top_le_iff.mp (h ▸ k2 h.ge)) hvt
    · exact lt_top_iff_ne_top.mpr h
  exact k3 hgb hgt

/-- C1: for every (deterministic) transition model substituted for
`apply_move`, every state, search depth and acting player, the sequential
alpha-beta search — seeded with `alpha = −∞`, `beta = +∞` — returns the
same root evaluation value as sequential minimax at the same depth. -/
theorem alpha_beta_matches_minimax_evaluation
    (T : GameState → Move → GameState) (s : GameState) (max_depth : Nat)
    (p : Player) :
    (AlphaBetaSearch.search T max_depth false s p).evaluation
      = (MinimaxSearch.search T max_depth s p).evaluation := by
  simp only [AlphaBetaSearch.search, MinimaxSearch.search, Bool.false_and,
    Bool.false_eq_true, if_false]
  exact alpha_beta_root_value T s max_depth p true

/-! ### Node-count comparison -/

/-- The node count of the maximizing minimax loop: the starting count plus
every child's count. -/
theorem MinimaxSearch.loopMax_count (child : Move → Fl × Nat) :
    ∀ (l : List Move) (acc : Fl) (best : Option Move) (n : Nat),
      (MinimaxSearch.loopMax child l acc best n).2.2
        = n + (l.map (fun m => (child m).2)).sum := by
  intro l
  induction l with
  | nil => intro acc best n; simp [MinimaxSearch.loopMax]
  | cons m rest ih =>
      intro acc best n
      simp only [MinimaxSearch.loopMax, List.map_cons, List.sum_cons]
      by_cases h : acc < (child m).1
      · rw [if_pos h, ih]; omega
      · rw [if_neg h, ih]; omega

/-- The node count of the minimizing minimax loop. -/
theorem MinimaxSearch.loopMin_count (child : Move → Fl × Nat) :
    ∀ (l : List Move) (acc : Fl) (best : Option Move) (n : Nat),
      (MinimaxSearch.loopMin child l acc best n).2.2
        = n + (l.map (fun m => (child m).2)).sum := by
  intro l
  induction l with
  | nil => intro acc best n; simp [MinimaxSearch.loopMin]
  | cons m rest ih =>
      intro acc best n
      simp only [MinimaxSearch.loopMin, List.map_cons, List.sum_cons]
      by_cases h : (child m).1 < acc
      · rw [if_pos h, ih]; omega
      · rw [if_neg h, ih]; omega

/-- The maximizing alpha-beta loop explores a prefix of the children, so
its count is bounded by the starting count plus any per-child bounds. -/
theorem AlphaBetaSearch.loopMax_count_le (child : Fl → Move → Fl × Nat)
    (beta : Fl) (bound : Move → Nat)
    (hchild : ∀ a m, (child a m).2 ≤ bound m) :
    ∀ (l : List Move) (alpha maxEval : Fl) (best : Option Move) (n : Nat),
      (AlphaBetaSearch.loopMax child beta l alpha maxEval best n).2.2
        ≤ n + (l.map bound).sum := by
  intro l
  induction l with
  | nil => intro alpha maxEval best n; simp [AlphaBetaSearch.loopMax]
  | cons m rest ih =>
      intro alpha maxEval best n
      simp only [AlphaBetaSearch.loopMax, List.map_cons, List.sum_cons]
      by_cases hcut : beta ≤ max alpha (child alpha m).1
      · rw [if_pos hcut]
        have := hchild alpha m
        show n + (child alpha m).2 ≤ _
        omega
      · rw [if_neg hcut]
        refine le_trans (ih _ _ _ _) ?_
        have := hchild alpha m
        omega

/-- The minimizing alpha-beta loop explores a prefix of the children. -/
theorem AlphaBetaSearch.loopMin_count_le (child : Fl → Move → Fl × Nat)
    (alpha : Fl) (bound : Move → Nat)
    (hchild : ∀ b m, (child b m).2 ≤ bound m) :
    ∀ (l : List Move) (beta minEval : Fl) (best : Option Move) (n : Nat),
      (AlphaBetaSearch.loopMin child alpha l beta minEval best n).2.2
        ≤ n + (l.map bound).sum := by
  intro l
  induction l with
  | nil => intro beta minEval best n; simp [AlphaBetaSearch.loopMin]
  | cons m rest ih =>
      intro beta minEval best n
      simp only [AlphaBetaSearch.loopMin, List.map_cons, List.sum_cons]
      by_cases hcut : min beta (child beta m).1 ≤ alpha
      · rw [if_pos hcut]
        have := hchild beta m
        show n + (child beta m).2 ≤ _
        omega
      · rw [if_neg hcut]
        refine le_trans (ih _ _ _ _) ?_
        have := hchild beta m
        omega

/-- Sequential alpha-beta never explores more nodes than minimax on the
same inputs, for any window and any transition model. -/
theorem alpha_beta_count_le_minimax (T : GameState → Move → GameState) :
    ∀ (depth : Nat) (s : GameState) (p : Player) (b : Bool) (alpha beta : Fl),
      (AlphaBetaSearch.alpha_beta T s depth alpha beta p b).2.2
        ≤ (MinimaxSearch.minimax T s depth p b).2.2 := by
  intro depth
  induction depth with
  | zero => intro s p b alpha beta; exact le_rfl
  | succ d ih =>
      intro s p b alpha beta
      simp only [AlphaBetaSearch.alpha_beta, MinimaxSearch.minimax]
      by_cases ht : GameTree.is_terminal s = true
      · simp [ht]
      · by_cases hmv : (GameTree.generate_moves s p).isEmpty = true
        · simp [ht, hmv]
        · cases b
          · simp only [ht, hmv, Bool.false_eq_true, if_false]
            rw [MinimaxSearch.loopMin_count]
            exact AlphaBetaSearch.loopMin_count_le
              (fun bb m =>
                (AlphaBetaSearch.alpha_beta T (T s m) d alpha bb p.opponent true).2)
              alpha
              (fun m => (MinimaxSearch.minimax T (T s m) d p.opponent true).2.2)
              (fun bb m => ih (T s m) p.opponent true alpha bb)
              (GameTree.generate_moves s p) beta ⊤ none 1
          · simp only [ht, hmv, Bool.false_eq_true, if_false, reduceIte]
            rw [MinimaxSearch.loopMax_count]
            exact AlphaBetaSearch.loopMax_count_le
              (fun a m =>
                (AlphaBetaSearch.alpha_beta T (T s m) d a beta p.opponent false).2)
              beta
              (fun m => (MinimaxSearch.minimax T (T s m) d p.opponent false).2.2)
              (fun a m => ih (T s m) p.opponent false a beta)
              (GameTree.generate_moves s p) alpha ⊥ none 1

/-- C3: on the same inputs and deterministic transition model, sequential
alpha-beta explores at most as many nodes as minimax; and at the claim's
cutoff example — depth 2 from the Claim phase with sibling moves of
differing value (draw 0.5 makes low-boldness claims succeed and bolder
ones fail) — it explores strictly fewer (37 versus 49). -/
theorem alpha_beta_node_count_le_minimax :
    (∀ (T : GameState → Move → GameState) (s : GameState) (max_depth : Nat)
        (p : Player),
      (AlphaBetaSearch.search T max_depth false s p).nodes_explored
        ≤ (MinimaxSearch.search T max_depth s p).nodes_explored) ∧
    (AlphaBetaSearch.search (GameTree.apply_move 0.5) 2 false test_state
        Player.Player1).nodes_explored <
      (MinimaxSearch.search (GameTree.apply_move 0.5) 2 test_state
        Player.Player1).nodes_explored := by
  constructor
  · intro T s max_depth p
    simp only [AlphaBetaSearch.search, MinimaxSearch.search, Bool.false_and,
      Bool.false_eq_true, if_false]
    exact alpha_beta_count_le_minimax T max_depth s p true ⊥ ⊤
  · with_unfolding_all decide

/-- C10: whenever parallelism is enabled and `max_depth > 3`,
`AlphaBetaSearch::search` reports `nodes_explored = 0`: the parallel root
fan-out uses worker-local counters that are discarded, and the top-level
counter stays at its reset value. -/
theorem parallel_search_reports_zero_nodes (T : GameState → Move → GameState)
    (max_depth : Nat) (s : GameState) (p : Player) (h : 3 < max_depth) :
    (AlphaBetaSearch.search T max_depth true s p).nodes_explored = 0 := by
  simp [AlphaBetaSearch.search, h]

/-- Witness for C10 at a concrete input: depth 4, parallel mode, drawn
transition model. -/
theorem parallel_search_reports_zero_nodes_witness :
    (AlphaBetaSearch.search (GameTree.apply_move 0.5) 4 true test_state
        Player.Player1).nodes_explored = 0 :=
  parallel_search_reports_zero_nodes (GameTree.apply_move 0.5) 4 test_state
    Player.Player1 (by norm_num)

end StrategicMindGames
